import Mathlib

/-!
Verification of the core logic of a Google-Maps business extractor
(src/index.js): the incremental-scroll URL-discovery pass (`collectUrls`)
and the heuristic field-extraction pass (`extractDetails`), together with
the orchestrator's record filter in `run`.

The JavaScript is embedded shallowly: the DOM environment is an explicit
data value (anchor href lists, per-iteration scroll observations,
accessible labels, the scanned elements), strings are Lean `String`
(lists of characters), and the in-page scroll loop is modelled as a
fuel-indexed iteration function whose `none` result means the loop is
still running after the given number of iterations.
-/

namespace GmapExtractor

/-! ## Character classes and text cleaning

`cleanText` in src/index.js:
`str ? str.replace(/[\r\n]+/g, ' ').replace(/\s+/g, ' ').trim() : ''`.
-/

/-- JavaScript `\s` on the ASCII range: the whitespace characters. -/
def isWs (c : Char) : Bool :=
  c = ' ' || c = '\t' || c = '\n' || c = '\r' || c = '\x0b' || c = '\x0c'

/-- The character class `[\r\n]`. -/
def isCrLf (c : Char) : Bool :=
  c = '\r' || c = '\n'

/-- One global regex replacement `X+ -> ' '`: every maximal run of
characters satisfying `p` becomes a single space.  The boolean flag
records whether the previous character was inside a run. -/
def collapseAux (p : Char → Bool) : Bool → List Char → List Char
  | _, [] => []
  | inRun, c :: cs =>
    if p c then
      if inRun then collapseAux p true cs
      else ' ' :: collapseAux p true cs
    else c :: collapseAux p false cs

/-- JavaScript `String.prototype.trim`: drop whitespace from both ends. -/
def trimChars (l : List Char) : List Char :=
  ((l.dropWhile isWs).reverse.dropWhile isWs).reverse

/-- `cleanText` from src/index.js line 190: a falsy (empty) input maps to
`''`; otherwise collapse `[\r\n]+` runs to a space, then `\s+` runs to a
space, then trim. -/
def cleanText (s : String) : String :=
  if s = "" then ""
  else (trimChars (collapseAux isWs false (collapseAux isCrLf false s.toList))).asString

/-! ## The scroll loop of `collectUrls` (src/index.js lines 152-179)

Each iteration of the in-page `while (true)` loop reads the container's
`scrollHeight` (`shPre`), scrolls by 800, waits 1500ms, counts the
rendered `a[href*="/maps/place/"]` anchors (`count`), and reads
`scrollHeight` again (`shPost`).  The loop breaks when `count >= max`,
or when the height did not change for more than 8 consecutive
iterations (`retries > 8`); a height change resets `retries` to 0.  The
"wiggle" `scrollBy(0, -300)` at `retries === 2` only moves the scroll
position and is invisible in this state; its effect, like every other
DOM effect, is absorbed into the arbitrary observation sequence. -/

/-- What one loop iteration observes from the page. -/
structure Obs where
  shPre : Nat
  shPost : Nat
  count : Nat
deriving DecidableEq

/-- Number of iterations the scroll loop executes before breaking, given
the per-iteration observations `env`.  `none` means the loop is still
running after `fuel` iterations. -/
def scrollIters (max : Nat) : Nat → (Nat → Obs) → Nat → Option Nat
  | 0, _, _ => none
  | fuel + 1, env, retries =>
    let o := env 0
    if max ≤ o.count then some 1
    else if o.shPost = o.shPre then
      if 8 < retries + 1 then some 1
      else
        match scrollIters max fuel (fun n => env (n + 1)) (retries + 1) with
        | none => none
        | some m => some (m + 1)
    else
      match scrollIters max fuel (fun n => env (n + 1)) 0 with
      | none => none
      | some m => some (m + 1)

/-! ## URL collection (src/index.js lines 149-185)

After the loop, `collectUrls` reads the hrefs of every
`a[href*="/maps/place/"]` anchor in the whole document, inserts them
into a JavaScript `Set` (which keeps first insertions and preserves
insertion order), and returns `Array.from(urls).slice(0, maxItems)`. -/

/-- `Set.prototype.add`: append iff not already present. -/
def setAdd (s : List String) (h : String) : List String :=
  if h ∈ s then s else s ++ [h]

/-- `hrefs.forEach(h => urls.add(h)); Array.from(urls)`. -/
def setFromList (l : List String) : List String :=
  l.foldl setAdd []

/-- Reference first-occurrence deduplication, used to reason about
`setFromList`. -/
def dedupFirst : List String → List String
  | [] => []
  | h :: t => h :: (dedupFirst t).filter (fun x => x ≠ h)

/-- Index of the first occurrence of `a` (length of the list if absent):
the position at which a candidate is first discovered. -/
def firstIdx (a : String) : List String → Nat
  | [] => 0
  | h :: t => if h = a then 0 else firstIdx a t + 1

/-- The page state `collectUrls` interacts with: whether
`document.querySelector(feedSelector)` finds the results container, the
observation sequence the scroll loop sees, and the hrefs of all
`a[href*="/maps/place/"]` anchors of the whole document (document
order) read by the final `page.$$eval`. -/
structure DiscoveryEnv where
  containerPresent : Bool
  obs : Nat → Obs
  docAnchors : List String

/-- `collectUrls(page, feedSelector, maxItems)`: the in-page evaluate
returns at once when the container is missing (`if (!container) return`)
and otherwise runs the scroll loop; then the document-wide anchor hrefs
are deduplicated through the `Set` and truncated with
`.slice(0, maxItems)`.  The first component is the number of loop
iterations (`some 0` when the container is absent, `none` if the loop
has not stopped within `fuel` iterations); the second is the returned
URL list. -/
def collectUrls (env : DiscoveryEnv) (maxItems fuel : Nat) : Option Nat × List String :=
  ((if env.containerPresent then scrollIters maxItems fuel env.obs 0 else some 0),
   (setFromList env.docAnchors).take maxItems)

/-! ## String helpers for the extraction pass -/

/-- `needle` is an initial segment of `hay` (JavaScript
`String.prototype.startsWith`, on character lists). -/
def startsList : List Char → List Char → Bool
  | [], _ => true
  | _ :: _, [] => false
  | n :: ns, h :: hs => n = h && startsList ns hs

/-- JavaScript `String.prototype.includes`: `needle` occurs as a
contiguous substring of `hay`. -/
def hasSub (needle : List Char) : List Char → Bool
  | [] => startsList needle []
  | h :: hs => startsList needle (h :: hs) || hasSub needle hs

/-- `hay.includes(needle)` on strings. -/
def strIncludes (hay needle : String) : Bool :=
  hasSub needle.toList hay.toList

/-- `id.startsWith(needle)` on strings. -/
def strStarts (hay needle : String) : Bool :=
  startsList needle.toList hay.toList

/-- Case-insensitive initial-segment test (ASCII lowering), for the
`/^Label:?\s*/i` regexes. -/
def startsListCI : List Char → List Char → Bool
  | [], _ => true
  | _ :: _, [] => false
  | n :: ns, h :: hs => n.toLower = h.toLower && startsListCI ns hs

/-- One anchored regex replacement `^label:?\s* -> ''` (case-insensitive
on `label`): if the string starts with `label`, drop it, then an
optional single `':'`, then any run of whitespace; otherwise leave the
string unchanged. -/
def stripLabelCI (label : List Char) (s : List Char) : List Char :=
  if startsListCI label s then
    let rest := s.drop label.length
    let rest2 := match rest with
      | ':' :: r => r
      | r => r
    rest2.dropWhile isWs
  else s

/-- `removeLabel(str, /^Label:?\s*/i)` from src/index.js line 191:
`str.replace(regex, '').trim()`. -/
def removeLabel (label : String) (s : String) : String :=
  (trimChars (stripLabelCI label.toList s.toList)).asString

/-! ## `extractDetails` (src/index.js lines 188-255) -/

/-- One element returned by the
`div[role="main"] button, div[role="main"] a, div[role="main"] div[data-item-id]`
scan: `aria` is `getAttribute('aria-label') || ''`, `text` is
`innerText || ''`, `id` is `getAttribute('data-item-id') || ''`, `href`
is `el.href || ''`, and `isAnchor` records `el.tagName === 'A'`. -/
structure Elem where
  aria : String
  text : String
  id : String
  href : String
  isAnchor : Bool
deriving DecidableEq

/-- `cleanText(aria || text)`: the empty string is falsy. -/
def content (el : Elem) : String :=
  cleanText (if el.aria = "" then el.text else el.aria)

/-- The mutable `address` / `phone` / `website` variables of the scan. -/
structure ScanState where
  address : String
  phone : String
  website : String
deriving DecidableEq

/-- The element is handled by the address branch:
`id === 'address' || content.includes('Address:')`. -/
def isAddrCand (el : Elem) : Bool :=
  el.id = "address" || strIncludes (content el) "Address:"

/-- The candidate address text: `removeLabel(content, /^Address:?\s*/i)`. -/
def stripAddr (el : Elem) : String :=
  removeLabel "Address" (content el)

/-- The element is handled by the phone branch:
`id.startsWith('phone') || content.includes('Phone:')`. -/
def isPhoneCand (el : Elem) : Bool :=
  strStarts el.id "phone" || strIncludes (content el) "Phone:"

/-- The candidate phone text: `removeLabel(content, /^Phone:?\s*/i)`. -/
def stripPhone (el : Elem) : String :=
  removeLabel "Phone" (content el)

/-- The character class `[\d\+\-\(\)\s]` of the phone filter. -/
def isPhoneChar (c : Char) : Bool :=
  c.isDigit || c = '+' || c = '-' || c = '(' || c = ')' || isWs c

/-- `possiblePhone.match(/[\d\+\-\(\)\s]{5,}/)` is truthy: some five
consecutive characters all lie in the class (hence some run of length
at least five does). -/
def hasPhoneRun : List Char → Bool
  | [] => false
  | c :: cs =>
    ((c :: cs).take 5).length = 5 && ((c :: cs).take 5).all isPhoneChar
      || hasPhoneRun cs

/-- The element is handled by the website branch:
`id === 'authority' || content.includes('Website:')`. -/
def isWebCand (el : Elem) : Bool :=
  el.id = "authority" || strIncludes (content el) "Website:"

/-- The address branch of the `forEach` body (src/index.js lines
222-225): overwrite `address` when the classifier fires and the
stripped candidate is longer than 5 characters. -/
def addrUpdate (st : ScanState) (el : Elem) : ScanState :=
  if isAddrCand el then
    if 5 < (stripAddr el).length then { st with address := stripAddr el } else st
  else st

/-- The phone branch (src/index.js lines 227-229): overwrite `phone`
when the classifier fires and the candidate contains a run of at least
5 digit/punctuation characters. -/
def phoneUpdate (st : ScanState) (el : Elem) : ScanState :=
  if isPhoneCand el then
    if hasPhoneRun (stripPhone el).toList then { st with phone := stripPhone el } else st
  else st

/-- The website branch (src/index.js lines 232-235): an anchor with a
non-empty href contributes its href, any other firing element its
stripped text — with no validity filter. -/
def webUpdate (st : ScanState) (el : Elem) : ScanState :=
  if isWebCand el then
    if el.isAnchor && el.href ≠ "" then { st with website := el.href }
    else { st with website := removeLabel "Website" (content el) }
  else st

/-- The body of `elements.forEach(el => ...)` (src/index.js lines
214-236): the three field branches run in sequence on the shared
mutable state. -/
def scanStep (st : ScanState) (el : Elem) : ScanState :=
  webUpdate (phoneUpdate (addrUpdate st el) el) el

/-- The whole `forEach` scan, from the initial `'N/A'` values. -/
def scanFields (els : List Elem) : ScanState :=
  els.foldl scanStep ⟨"N/A", "N/A", "N/A"⟩

/-- JavaScript `str.split(' ')`: split at every single space; the
result is never the empty list (`''.split(' ')` is `['']`). -/
def splitSp : List Char → List (List Char)
  | [] => [[]]
  | c :: cs =>
    if c = ' ' then [] :: splitSp cs
    else
      match splitSp cs with
      | [] => [[c]]
      | w :: ws => (c :: w) :: ws

/-- `ratingEl ? ratingEl.getAttribute('aria-label').split(' ')[0] : 'N/A'`:
the label of the first `div[role="main"] span[aria-label*="stars"]`, or
`none` when no such element exists. -/
def parseRating (ratingLabel : Option String) : String :=
  match ratingLabel with
  | none => "N/A"
  | some lbl => ((splitSp lbl.toList).headD []).asString

/-- The character class `[0-9,]` of the reviews regex. -/
def isRevChar (c : Char) : Bool :=
  c.isDigit || c = ','

/-- `label.match(/([0-9,]+)/)`: the leftmost maximal run of digits and
commas, if any. -/
def firstRevRun : List Char → Option (List Char)
  | [] => none
  | c :: cs =>
    if isRevChar c then some (c :: cs.takeWhile isRevChar)
    else firstRevRun cs

/-- Reviews parsing (src/index.js lines 203-205): take the first
digits/commas run of the `button[aria-label*="reviews"]` label, strip
the commas; `'0'` when the element or the run is absent. -/
def parseReviews (reviewsLabel : Option String) : String :=
  match reviewsLabel with
  | none => "0"
  | some lbl =>
    match firstRevRun lbl.toList with
    | none => "0"
    | some run => (run.filter (fun c => c ≠ ',')).asString

/-- Accumulator pass of `decimalValue`. -/
def decimalValueAux : Nat → List Char → Option Nat
  | acc, [] => some acc
  | acc, c :: cs =>
    if c.isDigit then decimalValueAux (acc * 10 + (c.toNat - 48)) cs else none

/-- The natural number a non-empty all-digit string denotes, `none`
otherwise: the integer value of the reviews field the code stores as a
decimal string. -/
def decimalValue (s : String) : Option Nat :=
  match s.toList with
  | [] => none
  | l => decimalValueAux 0 l

/-- The rendered detail page as `extractDetails` reads it: the first
`h1` innerText (if one exists), the aria labels of the rating and
reviews elements (if they exist), the scanned elements in document
order, and the hrefs of the `a[href^="http"]` links whose
`data-item-id` is `'authority'` (document order), for the website
fallback. -/
structure PageModel where
  h1 : Option String
  ratingLabel : Option String
  reviewsLabel : Option String
  elements : List Elem
  authorityLinks : List String
deriving DecidableEq

/-- The record literal `extractDetails` returns (reviews is kept as the
decimal string the code produces). -/
structure BusinessRecord where
  name : String
  phone : String
  address : String
  website : String
  rating : String
  reviews : String
  url : String
deriving DecidableEq

/-- `extractDetails(page, url)` (src/index.js lines 188-255): clean the
`h1` text and reject with `null` when it is empty; otherwise parse the
rating and reviews labels, run the element scan, apply the website
fallback, and assemble the record. -/
def extractDetails (p : PageModel) (currentUrl : String) : Option BusinessRecord :=
  let name := cleanText (p.h1.getD "")
  if name = "" then none
  else
    let rating := parseRating p.ratingLabel
    let reviews := parseReviews p.reviewsLabel
    let st := scanFields p.elements
    let website :=
      if st.website = "N/A" then
        match p.authorityLinks.head? with
        | some h => cleanText h
        | none => st.website
      else st.website
    some ⟨name, st.phone, st.address, website, rating, reviews, currentUrl⟩

/-! ## The orchestrator's record filter (src/index.js lines 111-118)

`const data = await extractDetails(page, url);
 if (data && data.name && data.name !== 'Google Maps')
   extractedData.push(data);` -/

/-- One iteration of the batch loop, restricted to its effect on
`extractedData`: append the extraction result iff it is non-null, its
name is a non-empty string, and its name is not `'Google Maps'`. -/
def processStep (acc : List BusinessRecord) (d : Option BusinessRecord) : List BusinessRecord :=
  match d with
  | some data =>
    if data.name ≠ "" ∧ data.name ≠ "Google Maps" then acc ++ [data] else acc
  | none => acc

/-- The whole batch loop's effect on `extractedData`, given the
per-candidate extraction outcomes in visit order. -/
def processResults (ds : List (Option BusinessRecord)) : List BusinessRecord :=
  ds.foldl processStep []

/-! ## Lemmas: the `Set`-based deduplication -/

theorem foldl_setAdd_eq : ∀ (l s : List String),
    l.foldl setAdd s = s ++ (dedupFirst l).filter (fun x => decide (¬ x ∈ s))
  | [], s => by simp [dedupFirst]
  | h :: t, s => by
    simp only [List.foldl_cons, dedupFirst]
    by_cases hm : h ∈ s
    · have hset : setAdd s h = s := by simp [setAdd, hm]
      rw [hset, foldl_setAdd_eq t s, List.filter_cons]
      have hdh : (decide (¬ h ∈ s)) = false := by simp [hm]
      rw [hdh]
      simp only [List.filter_filter]
      congr 1
      apply List.filter_congr
      intro x hx
      by_cases hxs : x ∈ s
      · simp [hxs]
      · have hne : x ≠ h := fun he => hxs (he ▸ hm)
        simp [hxs, hne]
    · have hset : setAdd s h = s ++ [h] := by simp [setAdd, hm]
      rw [hset, foldl_setAdd_eq t (s ++ [h]), List.filter_cons]
      have hdh : (decide (¬ h ∈ s)) = true := by simp [hm]
      rw [hdh]
      simp only [List.append_assoc, List.cons_append, List.nil_append,
        List.filter_filter]
      congr 2
      apply List.filter_congr
      intro x hx
      by_cases hxh : x = h
      · simp [hxh]
      · simp [hxh, List.mem_append]

/-- The JavaScript `Set` insertion pass is exactly first-occurrence
deduplication. -/
theorem setFromList_eq_dedupFirst (l : List String) :
    setFromList l = dedupFirst l := by
  rw [setFromList, foldl_setAdd_eq l []]
  simp

theorem dedupFirst_nodup : ∀ l : List String, (dedupFirst l).Nodup
  | [] => List.nodup_nil
  | h :: t => by
    rw [dedupFirst]
    refine List.Pairwise.cons ?_ ((dedupFirst_nodup t).filter _)
    intro b hb
    have hbh : b ≠ h := by simpa using List.of_mem_filter hb
    exact hbh.symm

theorem firstIdx_cons_self (a : String) (t : List String) :
    firstIdx a (a :: t) = 0 := by
  simp [firstIdx]

theorem firstIdx_cons_ne (a h : String) (t : List String) (hne : a ≠ h) :
    firstIdx a (h :: t) = firstIdx a t + 1 := by
  simp [firstIdx, hne.symm]

theorem mem_dedupFirst : ∀ (l : List String) (a : String),
    a ∈ dedupFirst l ↔ a ∈ l
  | [], a => by simp [dedupFirst]
  | h :: t, a => by
    rw [dedupFirst]
    by_cases hah : a = h
    · subst hah; simp
    · simp only [List.mem_cons, List.mem_filter, mem_dedupFirst t a, hah,
        false_or, decide_not]
      constructor
      · intro hmem; exact hmem.1
      · intro hmem; exact ⟨hmem, by simp [hah]⟩

/-- First-occurrence deduplication lists its elements in strictly
increasing order of first occurrence. -/
theorem dedupFirst_pairwise_firstIdx : ∀ l : List String,
    (dedupFirst l).Pairwise (fun a b => firstIdx a l < firstIdx b l)
  | [] => List.Pairwise.nil
  | h :: t => by
    rw [dedupFirst]
    refine List.Pairwise.cons ?_ ?_
    · intro b hb
      have hbne : b ≠ h := by
        have := List.of_mem_filter hb
        simpa using this
      rw [firstIdx_cons_self, firstIdx_cons_ne b h t hbne]
      exact Nat.succ_pos _
    · have hpw : ((dedupFirst t).filter (fun x => decide (x ≠ h))).Pairwise
          (fun a b => firstIdx a t < firstIdx b t) :=
        (dedupFirst_pairwise_firstIdx t).sublist (List.filter_sublist _)
      refine hpw.imp_of_mem ?_
      intro a b ha hb hlt
      have hane : a ≠ h := by simpa using List.of_mem_filter ha
      have hbne : b ≠ h := by simpa using List.of_mem_filter hb
      rw [firstIdx_cons_ne a h t hane, firstIdx_cons_ne b h t hbne]
      exact Nat.succ_lt_succ hlt

/-! ## Lemmas: the scroll loop -/

/-- If the scrollable extent never grows, the loop stops within
`9 - retries` further iterations: each stagnant iteration increments
`retries`, and the loop breaks as soon as `retries` exceeds 8. -/
theorem scrollIters_stagnant : ∀ (fuel retries : Nat) (env : Nat → Obs) (max : Nat),
    (∀ i, (env i).shPost = (env i).shPre) → retries ≤ 8 → 9 - retries ≤ fuel →
    ∃ k, k ≤ 9 - retries ∧ scrollIters max fuel env retries = some k
  | 0, retries, _, _, _, hr, hf => by omega
  | fuel + 1, retries, env, max, hstag, hr, hf => by
    rw [scrollIters]
    by_cases hc : max ≤ (env 0).count
    · exact ⟨1, by omega, by simp [hc]⟩
    · have hsh : (env 0).shPost = (env 0).shPre := hstag 0
      by_cases hr8 : 8 < retries + 1
      · exact ⟨1, by omega, by simp [hc, hsh, hr8]⟩
      · obtain ⟨k, hk, heq⟩ :=
          scrollIters_stagnant fuel (retries + 1) (fun n => env (n + 1)) max
            (fun i => hstag (i + 1)) (by omega) (by omega)
        exact ⟨k + 1, by omega, by simp [hc, hsh, hr8, heq]⟩

/-- If the rendered anchor count reaches `max` at iteration `k`, the
loop stops within `k + 1` iterations (possibly earlier, on the retry
cap). -/
theorem scrollIters_target : ∀ (k : Nat) (env : Nat → Obs) (max fuel retries : Nat),
    max ≤ (env k).count → k < fuel →
    ∃ m, m ≤ k + 1 ∧ scrollIters max fuel env retries = some m
  | 0, env, max, fuel, retries, hc, hf => by
    obtain ⟨f, rfl⟩ : ∃ f, fuel = f + 1 := ⟨fuel - 1, by omega⟩
    rw [scrollIters]
    exact ⟨1, by omega, by simp [hc]⟩
  | k + 1, env, max, fuel, retries, hc, hf => by
    obtain ⟨f, rfl⟩ : ∃ f, fuel = f + 1 := ⟨fuel - 1, by omega⟩
    rw [scrollIters]
    by_cases hc0 : max ≤ (env 0).count
    · exact ⟨1, by omega, by simp [hc0]⟩
    · by_cases hsh : (env 0).shPost = (env 0).shPre
      · by_cases hr8 : 8 < retries + 1
        · exact ⟨1, by omega, by simp [hc0, hsh, hr8]⟩
        · obtain ⟨m, hm, heq⟩ :=
            scrollIters_target k (fun n => env (n + 1)) max f (retries + 1)
              hc (by omega)
          exact ⟨m + 1, by omega, by simp [hc0, hsh, hr8, heq]⟩
      · obtain ⟨m, hm, heq⟩ :=
          scrollIters_target k (fun n => env (n + 1)) max f 0 hc (by omega)
        exact ⟨m + 1, by omega, by simp [hc0, hsh, heq]⟩

/-- Against an environment whose extent grows at every iteration and
whose anchor count stays 0. the loop (with `max = 1`) never breaks:
every fuel bound is exhausted. -/
theorem scrollIters_growing : ∀ (fuel retries : Nat) (env : Nat → Obs),
    (∀ i, (env i).count = 0) → (∀ i, (env i).shPost ≠ (env i).shPre) →
    scrollIters 1 fuel env retries = none
  | 0, _, _, _, _ => rfl
  | fuel + 1, retries, env, hcnt, hgrow => by
    rw [scrollIters]
    have hc : ¬ 1 ≤ (env 0).count := by rw [hcnt 0]; omega
    have heq := scrollIters_growing fuel 0 (fun n => env (n + 1))
      (fun i => hcnt (i + 1)) (fun i => hgrow (i + 1))
    simp [hc, hgrow 0, heq]

/-! ## Lemmas: the extraction scan -/

theorem phoneUpdate_address (st : ScanState) (el : Elem) :
    (phoneUpdate st el).address = st.address := by
  rw [phoneUpdate]; split_ifs <;> rfl

theorem webUpdate_address (st : ScanState) (el : Elem) :
    (webUpdate st el).address = st.address := by
  rw [webUpdate]; split_ifs <;> rfl

theorem addrUpdate_phone (st : ScanState) (el : Elem) :
    (addrUpdate st el).phone = st.phone := by
  rw [addrUpdate]; split_ifs <;> rfl

theorem webUpdate_phone (st : ScanState) (el : Elem) :
    (webUpdate st el).phone = st.phone := by
  rw [webUpdate]; split_ifs <;> rfl

theorem scanStep_address (st : ScanState) (el : Elem) :
    (scanStep st el).address =
      if isAddrCand el ∧ 5 < (stripAddr el).length then stripAddr el
      else st.address := by
  rw [scanStep, webUpdate_address, phoneUpdate_address, addrUpdate]
  by_cases hA : isAddrCand el <;> by_cases hL : 5 < (stripAddr el).length <;>
    simp [hA, hL]

theorem scanStep_phone (st : ScanState) (el : Elem) :
    (scanStep st el).phone =
      if isPhoneCand el ∧ hasPhoneRun (stripPhone el).toList then stripPhone el
      else st.phone := by
  rw [scanStep, webUpdate_phone, phoneUpdate]
  by_cases hP : isPhoneCand el <;> by_cases hR : hasPhoneRun (stripPhone el).toList <;>
    simp_all [String.toList, addrUpdate_phone]

/-- An address value the scan actually writes is longer than 5
characters, so it is never the 3-character default `'N/A'`. -/
theorem stripAddr_ne_na (el : Elem) (h : 5 < (stripAddr el).length) :
    stripAddr el ≠ "N/A" := by
  intro he
  rw [he] at h
  exact absurd h (by decide)

/-- A phone value the scan actually writes passes the digit-run filter,
which `'N/A'` does not. -/
theorem stripPhone_ne_na (el : Elem)
    (h : hasPhoneRun (stripPhone el).toList = true) :
    stripPhone el ≠ "N/A" := by
  intro he
  rw [he] at h
  exact absurd h (by decide)

theorem foldl_scanStep_address_na : ∀ (els : List Elem) (st : ScanState),
    ((els.foldl scanStep st).address = "N/A" ↔
      (st.address = "N/A" ∧
        ∀ el ∈ els, isAddrCand el = true → (stripAddr el).length ≤ 5))
  | [], st => by simp
  | el :: rest, st => by
    rw [List.foldl_cons, foldl_scanStep_address_na rest (scanStep st el)]
    rw [scanStep_address st el]
    by_cases hset : isAddrCand el ∧ 5 < (stripAddr el).length
    · simp only [if_pos hset]
      constructor
      · rintro ⟨hna, -⟩
        exact absurd hna (stripAddr_ne_na el hset.2)
      · rintro ⟨-, hall⟩
        have := hall el (List.mem_cons_self el rest) hset.1
        omega
    · simp only [if_neg hset]
      constructor
      · rintro ⟨hna, hall⟩
        refine ⟨hna, ?_⟩
        intro x hx hcand
        rcases List.mem_cons.mp hx with hxe | hxr
        · subst hxe
          by_contra hlen
          exact hset ⟨hcand, by omega⟩
        · exact hall x hxr hcand
      · rintro ⟨hna, hall⟩
        exact ⟨hna, fun x hx hcand => hall x (List.mem_cons_of_mem el hx) hcand⟩

theorem foldl_scanStep_address_mem : ∀ (els : List Elem) (st : ScanState),
    (els.foldl scanStep st).address = st.address ∨
    ∃ el ∈ els, isAddrCand el = true ∧ 5 < (stripAddr el).length ∧
      (els.foldl scanStep st).address = stripAddr el
  | [], st => Or.inl rfl
  | el :: rest, st => by
    rw [List.foldl_cons]
    rcases foldl_scanStep_address_mem rest (scanStep st el) with heq | ⟨x, hx, h1, h2, h3⟩
    · rw [heq, scanStep_address st el]
      by_cases hset : isAddrCand el ∧ 5 < (stripAddr el).length
      · exact Or.inr ⟨el, List.mem_cons_self el rest, hset.1, hset.2, if_pos hset⟩
      · exact Or.inl (if_neg hset)
    · exact Or.inr ⟨x, List.mem_cons_of_mem el hx, h1, h2, h3⟩

theorem foldl_scanStep_phone_mem : ∀ (els : List Elem) (st : ScanState),
    (els.foldl scanStep st).phone = st.phone ∨
    ∃ el ∈ els, isPhoneCand el = true ∧ hasPhoneRun (stripPhone el).toList = true ∧
      (els.foldl scanStep st).phone = stripPhone el
  | [], st => Or.inl rfl
  | el :: rest, st => by
    rw [List.foldl_cons]
    rcases foldl_scanStep_phone_mem rest (scanStep st el) with heq | ⟨x, hx, h1, h2, h3⟩
    · rw [heq, scanStep_phone st el]
      by_cases hset : isPhoneCand el ∧ hasPhoneRun (stripPhone el).toList
      · exact Or.inr ⟨el, List.mem_cons_self el rest, hset.1, hset.2, if_pos hset⟩
      · exact Or.inl (if_neg hset)
    · exact Or.inr ⟨x, List.mem_cons_of_mem el hx, h1, h2, h3⟩

/-! ## Lemmas: emptiness of `cleanText` -/

/-- Every character a collapse pass emits is a space or comes from the
input. -/
theorem mem_collapseAux : ∀ (p : Char → Bool) (b : Bool) (l : List Char) (c : Char),
    c ∈ collapseAux p b l → c = ' ' ∨ c ∈ l
  | _, _, [], _, h => absurd h (List.not_mem_nil _)
  | p, b, x :: xs, c, h => by
    rw [collapseAux] at h
    by_cases hp : p x
    · rw [if_pos hp] at h
      by_cases hb : b
      · rw [if_pos hb] at h
        rcases mem_collapseAux p true xs c h with hc | hc
        · exact Or.inl hc
        · exact Or.inr (List.mem_cons_of_mem x hc)
      · rw [if_neg hb] at h
        rcases List.mem_cons.mp h with hc | hc
        · exact Or.inl hc
        · rcases mem_collapseAux p true xs c hc with hc2 | hc2
          · exact Or.inl hc2
          · exact Or.inr (List.mem_cons_of_mem x hc2)
    · rw [if_neg hp] at h
      rcases List.mem_cons.mp h with hc | hc
      · exact Or.inr (hc ▸ List.mem_cons_self x xs)
      · rcases mem_collapseAux p false xs c hc with hc2 | hc2
        · exact Or.inl hc2
        · exact Or.inr (List.mem_cons_of_mem x hc2)

/-- A character outside the collapsed class survives the pass. -/
theorem collapseAux_mem_of_not : ∀ (p : Char → Bool) (b : Bool) (l : List Char) (c : Char),
    p c = false → c ∈ l → c ∈ collapseAux p b l
  | _, _, [], _, _, h => absurd h (List.not_mem_nil _)
  | p, b, x :: xs, c, hc, h => by
    rw [collapseAux]
    by_cases hp : p x
    · have hcx : c ∈ xs := by
        rcases List.mem_cons.mp h with he | hm
        · exact absurd (he ▸ hp) (by simp [hc])
        · exact hm
      rw [if_pos hp]
      by_cases hb : b
      · rw [if_pos hb]
        exact collapseAux_mem_of_not p true xs c hc hcx
      · rw [if_neg hb]
        exact List.mem_cons_of_mem _ (collapseAux_mem_of_not p true xs c hc hcx)
    · rw [if_neg hp]
      rcases List.mem_cons.mp h with he | hm
      · rw [he]
        exact List.mem_cons_self x _
      · exact List.mem_cons_of_mem _ (collapseAux_mem_of_not p false xs c hc hm)

/-- A non-whitespace character survives `dropWhile isWs`. -/
theorem mem_dropWhile_of_not : ∀ (l : List Char) (c : Char),
    isWs c = false → c ∈ l → c ∈ l.dropWhile isWs
  | [], _, _, h => absurd h (List.not_mem_nil _)
  | x :: xs, c, hc, h => by
    rw [List.dropWhile]
    by_cases hx : isWs x
    · have hcx : c ∈ xs := by
        rcases List.mem_cons.mp h with he | hm
        · exact absurd (he ▸ hx) (by simp [hc])
        · exact hm
      rw [hx]
      exact mem_dropWhile_of_not xs c hc hcx
    · rw [Bool.of_not_eq_true hx]
      exact h

/-- A non-whitespace character survives trimming. -/
theorem mem_trimChars_of_not (l : List Char) (c : Char)
    (hc : isWs c = false) (h : c ∈ l) : c ∈ trimChars l := by
  rw [trimChars, List.mem_reverse]
  apply mem_dropWhile_of_not _ _ hc
  rw [List.mem_reverse]
  exact mem_dropWhile_of_not _ _ hc h

/-- Trimming an all-whitespace string leaves nothing. -/
theorem trimChars_of_allWs (l : List Char) (h : ∀ c ∈ l, isWs c = true) :
    trimChars l = [] := by
  have hdrop : l.dropWhile isWs = [] := List.dropWhile_eq_nil_iff.mpr h
  rw [trimChars, hdrop]
  simp

/-- A `[\r\n]` character is whitespace. -/
theorem isWs_of_isCrLf (c : Char) (h : isCrLf c = true) : isWs c = true := by
  rw [isCrLf] at h
  rw [isWs]
  rcases Bool.or_eq_true_iff.mp h with h1 | h1 <;> simp [h1]

/-- `cleanText` gives the empty string exactly on all-whitespace (in
particular empty) input: the "empty or whitespace-only heading"
condition. -/
theorem cleanText_eq_empty_iff (s : String) :
    cleanText s = "" ↔ s.toList.all isWs = true := by
  rw [cleanText]
  by_cases hs : s = ""
  · subst hs
    simp
  · rw [if_neg hs]
    constructor
    · intro h
      rw [List.all_eq_true]
      by_contra hall
      push_neg at hall
      obtain ⟨c, hc, hcw⟩ := hall
      have hcw' : isWs c = false := by simpa using hcw
      have hcr : isCrLf c = false := by
        by_contra hcr
        have := isWs_of_isCrLf c (by simpa using hcr)
        simp [hcw'] at this
      have h1 : c ∈ collapseAux isCrLf false s.toList :=
        collapseAux_mem_of_not isCrLf false s.toList c hcr hc
      have h2 : c ∈ collapseAux isWs false (collapseAux isCrLf false s.toList) :=
        collapseAux_mem_of_not isWs false _ c hcw' h1
      have h3 : c ∈ trimChars (collapseAux isWs false (collapseAux isCrLf false s.toList)) :=
        mem_trimChars_of_not _ c hcw' h2
      have hne : trimChars (collapseAux isWs false (collapseAux isCrLf false s.toList)) ≠ [] :=
        List.ne_nil_of_mem h3
      rw [String.ext_iff] at h
      exact hne h
    · intro h
      rw [List.all_eq_true] at h
      have hall1 : ∀ c ∈ collapseAux isCrLf false s.toList, isWs c = true := by
        intro c hc
        rcases mem_collapseAux isCrLf false s.toList c hc with he | hm
        · subst he; rfl
        · exact h c hm
      have hall2 : ∀ c ∈ collapseAux isWs false (collapseAux isCrLf false s.toList),
          isWs c = true := by
        intro c hc
        rcases mem_collapseAux isWs false _ c hc with he | hm
        · subst he; rfl
        · exact hall1 c hm
      rw [trimChars_of_allWs _ hall2]
      rfl

/-! ## Lemmas: the orchestrator's append loop -/

theorem foldl_processStep_mem :
    ∀ (ds : List (Option BusinessRecord)) (acc : List BusinessRecord) (r : BusinessRecord),
    r ∈ ds.foldl processStep acc ↔
      r ∈ acc ∨ (some r ∈ ds ∧ r.name ≠ "" ∧ r.name ≠ "Google Maps")
  | [], acc, r => by simp
  | d :: rest, acc, r => by
    rw [List.foldl_cons, foldl_processStep_mem rest (processStep acc d) r]
    have hstep : r ∈ processStep acc d ↔
        r ∈ acc ∨ (d = some r ∧ r.name ≠ "" ∧ r.name ≠ "Google Maps") := by
      cases d with
      | none => simp [processStep]
      | some data =>
        by_cases hcond : data.name ≠ "" ∧ data.name ≠ "Google Maps"
        · rw [processStep, if_pos hcond]
          simp only [List.mem_append, List.mem_singleton, Option.some.injEq]
          constructor
          · rintro (h | h)
            · exact Or.inl h
            · subst h; exact Or.inr ⟨rfl, hcond⟩
          · rintro (h | ⟨he, -⟩)
            · exact Or.inl h
            · subst he; exact Or.inr rfl
        · rw [processStep, if_neg hcond]
          simp only [Option.some.injEq]
          constructor
          · exact Or.inl
          · rintro (h | ⟨he, hc⟩)
            · exact h
            · subst he; exact absurd hc hcond
    rw [hstep]
    simp only [List.mem_cons]
    tauto

/-! ## Claim theorems -/

/-- C1: For every `maxCount` (a natural number, hence at least 0) and
every sequence of anchor targets rendered in the document, the URL
sequence returned by `collectUrls` contains no duplicate identifier,
has length at most `maxCount`, and lists the identifiers in strictly
increasing order of first occurrence (first-discovery order). -/
theorem c1_collectUrls_nodup_bounded_firstSeen (env : DiscoveryEnv) (maxCount fuel : Nat) :
    ((collectUrls env maxCount fuel).2).Nodup ∧
    ((collectUrls env maxCount fuel).2).length ≤ maxCount ∧
    ((collectUrls env maxCount fuel).2).Pairwise
      (fun a b => firstIdx a env.docAnchors < firstIdx b env.docAnchors) := by
  have h2 : (collectUrls env maxCount fuel).2 =
      (dedupFirst env.docAnchors).take maxCount := by
    rw [collectUrls, setFromList_eq_dedupFirst]
  refine ⟨?_, ?_, ?_⟩
  · rw [h2]
    exact (dedupFirst_nodup env.docAnchors).sublist (List.take_sublist _ _)
  · rw [h2]
    exact List.length_take_le _ _
  · rw [h2]
    exact (dedupFirst_pairwise_firstIdx env.docAnchors).sublist (List.take_sublist _ _)

/-- C2: The scroll loop terminates within the hard retry cap — at most
9 iterations — whenever the container's scrollable extent never grows
across an iteration (exhaustion case), and it terminates by iteration
`k + 1` whenever the rendered matching-anchor count reaches `maxCount`
at iteration `k` (target-reached case); in both cases the number of
iterations is bounded. -/
theorem c2_scroll_loop_terminates (env : Nat → Obs) (max fuel : Nat) :
    ((∀ i, (env i).shPost = (env i).shPre) → 9 ≤ fuel →
      ∃ k, k ≤ 9 ∧ scrollIters max fuel env 0 = some k) ∧
    (∀ k, max ≤ (env k).count → k < fuel →
      ∃ m, m ≤ k + 1 ∧ scrollIters max fuel env 0 = some m) := by
  constructor
  · intro hstag hf
    obtain ⟨k, hk, heq⟩ :=
      scrollIters_stagnant fuel 0 env max hstag (by omega) (by omega)
    exact ⟨k, by omega, heq⟩
  · intro k hc hf
    exact scrollIters_target k env max fuel 0 hc hf

/-- Witness for C2: a concrete environment whose extent never grows
(loop stops within 9 iterations), and a concrete environment whose
count meets the target at iteration 0 (loop stops at once). -/
theorem c2_scroll_loop_terminates_witness :
    (∃ k, k ≤ 9 ∧ scrollIters 5 9 (fun _ => ⟨100, 100, 0⟩) 0 = some k) ∧
    (∃ m, m ≤ 0 + 1 ∧ scrollIters 3 4 (fun _ => ⟨100, 250, 7⟩) 0 = some m) :=
  ⟨(c2_scroll_loop_terminates (fun _ => ⟨100, 100, 0⟩) 5 9).1 (fun _ => rfl) (by omega),
   (c2_scroll_loop_terminates (fun _ => ⟨100, 250, 7⟩) 3 4).2 0 (by decide) (by omega)⟩

/-- C4 as stated is false: there is no uniform bound `B` on the number
of loop iterations over all environment behaviours.  An environment
whose scrollable extent grows at every iteration while fewer than
`maxCount` anchors render keeps `retries` at 0 forever and the loop
never breaks. -/
theorem c4_no_uniform_cap_counterexample :
    ¬ ∃ B : Nat, ∀ (env : Nat → Obs) (max : Nat),
        ∃ k, k ≤ B ∧ scrollIters max B env 0 = some k := by
  rintro ⟨B, hB⟩
  obtain ⟨k, -, hk⟩ := hB (fun i => ⟨i, i + 1, 0⟩) 1
  rw [scrollIters_growing B 0 (fun i => ⟨i, i + 1, 0⟩) (fun i => rfl)
    (fun i => by simp)] at hk
  exact Option.noConfusion hk

/-- C4 (amended): the `retries > 8` hard stop is not a global iteration
cap: on an environment whose extent grows every iteration with the
count below `maxCount` the loop runs past every bound; the cap only
guarantees termination within 9 iterations whenever the extent never
grows (the count check additionally stops the loop when the target is
reached). -/
theorem c4_retry_cap_amended :
    (∃ (env : Nat → Obs) (max : Nat), ∀ fuel, scrollIters max fuel env 0 = none) ∧
    (∀ (env : Nat → Obs) (max fuel : Nat),
      (∀ i, (env i).shPost = (env i).shPre) → 9 ≤ fuel →
      ∃ k, k ≤ 9 ∧ scrollIters max fuel env 0 = some k) := by
  constructor
  · exact ⟨fun i => ⟨i, i + 1, 0⟩, 1, fun fuel =>
      scrollIters_growing fuel 0 _ (fun i => rfl) (fun i => by simp)⟩
  · intro env max fuel hstag hf
    obtain ⟨k, hk, heq⟩ :=
      scrollIters_stagnant fuel 0 env max hstag (by omega) (by omega)
    exact ⟨k, by omega, heq⟩

/-- Witness for the amended C4 at a concrete stagnant environment. -/
theorem c4_retry_cap_amended_witness :
    ∃ k, k ≤ 9 ∧ scrollIters 7 12 (fun _ => ⟨50, 50, 2⟩) 0 = some k :=
  c4_retry_cap_amended.2 (fun _ => ⟨50, 50, 2⟩) 7 12 (fun _ => rfl) (by omega)

/-- C3: a rating label `"4.5 stars"` yields rating `"4.5"` and an
absent rating element yields `"N/A"`; a reviews label `"1,234 reviews"`
yields the reviews value 1234 — stored by the code as the decimal digit
string `"1234"` with the thousands separator stripped, denoting the
integer 1234 ≥ 0 — and an absent reviews element yields the value 0
(the digit string `"0"`). -/
theorem c3_rating_reviews_parsing :
    extractDetails ⟨some "Biz One", some "4.5 stars", some "1,234 reviews", [], []⟩ "u"
      = some ⟨"Biz One", "N/A", "N/A", "N/A", "4.5", "1234", "u"⟩ ∧
    extractDetails ⟨some "Biz Two", none, none, [], []⟩ "u"
      = some ⟨"Biz Two", "N/A", "N/A", "N/A", "N/A", "0", "u"⟩ ∧
    decimalValue "1234" = some 1234 ∧
    decimalValue "0" = some 0 :=
  ⟨by decide, by decide, by decide, by decide⟩

/-- C5: `extractDetails` returns `null` exactly when the top-level
heading text — the empty string when the heading is missing — is empty
or whitespace-only; an empty normalized name is thus the only condition
on which extraction itself rejects, every other missing field only
producing a default value inside the returned record. -/
theorem c5_null_iff_empty_heading (p : PageModel) (u : String) :
    extractDetails p u = none ↔ (p.h1.getD "").toList.all isWs = true := by
  simp only [extractDetails]
  by_cases hn : cleanText (p.h1.getD "") = ""
  · rw [if_pos hn]
    exact iff_of_true rfl ((cleanText_eq_empty_iff _).mp hn)
  · rw [if_neg hn]
    constructor
    · intro h
      exact Option.noConfusion h
    · intro h
      exact absurd ((cleanText_eq_empty_iff _).mpr h) hn

/-- C6: an address candidate whose text has length at most 5 after the
`Address:` prefix is stripped never populates the address field — the
field is `'N/A'` exactly when every candidate is that short — and any
populated address comes from a candidate whose stripped text exceeds 5
characters. -/
theorem c6_address_min_length (els : List Elem) :
    ((scanFields els).address = "N/A" ↔
      ∀ el ∈ els, isAddrCand el = true → (stripAddr el).length ≤ 5) ∧
    ((scanFields els).address ≠ "N/A" →
      ∃ el ∈ els, isAddrCand el = true ∧ 5 < (stripAddr el).length ∧
        (scanFields els).address = stripAddr el) := by
  constructor
  · rw [scanFields, foldl_scanStep_address_na]
    simp
  · intro hne
    rw [scanFields] at hne ⊢
    rcases foldl_scanStep_address_mem els ⟨"N/A", "N/A", "N/A"⟩ with heq | hmem
    · exact absurd heq hne
    · exact hmem

/-- Witness for C6: a concrete long-enough candidate populates the
address field. -/
theorem c6_address_min_length_witness :
    ∃ el ∈ [(⟨"Address: 123 Main St", "", "", "", false⟩ : Elem)],
      isAddrCand el = true ∧ 5 < (stripAddr el).length ∧
      (scanFields [⟨"Address: 123 Main St", "", "", "", false⟩]).address = stripAddr el :=
  (c6_address_min_length [⟨"Address: 123 Main St", "", "", "", false⟩]).2 (by decide)

/-- C7: the phone validity filter accepts a candidate only if it
contains at least 5 consecutive characters drawn from digits, `+`, `-`,
`(`, `)` and whitespace: the candidate text `"Call us now"` leaves the
phone field `'N/A'`, the candidate `"+1 (555) 123-4567"` populates it,
and in general any populated phone comes from a candidate passing the
run filter. -/
theorem c7_phone_filter :
    (scanFields [⟨"", "Call us now", "phone:tel:", "", false⟩]).phone = "N/A" ∧
    (scanFields [⟨"+1 (555) 123-4567", "", "phone:tel:", "", false⟩]).phone
      = "+1 (555) 123-4567" ∧
    (∀ els : List Elem, (scanFields els).phone ≠ "N/A" →
      ∃ el ∈ els, isPhoneCand el = true ∧ hasPhoneRun (stripPhone el).toList = true ∧
        (scanFields els).phone = stripPhone el) := by
  refine ⟨by decide, by decide, ?_⟩
  intro els hne
  rw [scanFields] at hne ⊢
  rcases foldl_scanStep_phone_mem els ⟨"N/A", "N/A", "N/A"⟩ with heq | hmem
  · exact absurd heq hne
  · exact hmem

/-- Witness for C7: a concrete digit-punctuation candidate populates
the phone field. -/
theorem c7_phone_filter_witness :
    ∃ el ∈ [(⟨"+1 (555) 123-4567", "", "phone:tel:", "", false⟩ : Elem)],
      isPhoneCand el = true ∧ hasPhoneRun (stripPhone el).toList = true ∧
      (scanFields [⟨"+1 (555) 123-4567", "", "phone:tel:", "", false⟩]).phone
        = stripPhone el :=
  c7_phone_filter.2.2 [⟨"+1 (555) 123-4567", "", "phone:tel:", "", false⟩] (by decide)

/-- C8: heading-name normalization collapses whitespace and newline
runs to single spaces and trims the ends: the heading
`"  Joe's\n Cafe  "` yields the name `"Joe's Cafe"`. -/
theorem c8_heading_normalization :
    extractDetails ⟨some "  Joe's\n Cafe  ", none, none, [], []⟩ "u"
      = some ⟨"Joe's Cafe", "N/A", "N/A", "N/A", "N/A", "0", "u"⟩ := by
  decide

/-- C9: the orchestrator appends an extraction result to the result
collection iff it is non-null with a non-empty name different from the
exact string `"Google Maps"`; the placeholder check is case-sensitive
whole-string equality, so `"google maps"` and names merely containing
`"Google Maps"` as a substring are retained. -/
theorem c9_orchestrator_filter :
    (∀ (ds : List (Option BusinessRecord)) (r : BusinessRecord),
      r ∈ processResults ds ↔
        (some r ∈ ds ∧ r.name ≠ "" ∧ r.name ≠ "Google Maps")) ∧
    processResults [some ⟨"Google Maps", "N/A", "N/A", "N/A", "N/A", "0", "u"⟩] = [] ∧
    processResults [some ⟨"google maps", "N/A", "N/A", "N/A", "N/A", "0", "u"⟩]
      = [⟨"google maps", "N/A", "N/A", "N/A", "N/A", "0", "u"⟩] ∧
    processResults [some ⟨"Google Maps Business", "N/A", "N/A", "N/A", "N/A", "0", "u"⟩]
      = [⟨"Google Maps Business", "N/A", "N/A", "N/A", "N/A", "0", "u"⟩] ∧
    processResults [none] = [] := by
  refine ⟨?_, by decide, by decide, by decide, by decide⟩
  intro ds r
  rw [processResults, foldl_processStep_mem]
  simp

/-- C10: when no element matches the results-container selector, the
in-page loop returns immediately — zero iterations, no failure — and
`collectUrls` still returns the deduplicated place-link anchors found
anywhere in the whole document, truncated to `maxItems`. -/
theorem c10_collectUrls_no_container (obs : Nat → Obs) (docAnchors : List String)
    (maxItems fuel : Nat) :
    (collectUrls ⟨false, obs, docAnchors⟩ maxItems fuel).1 = some 0 ∧
    (collectUrls ⟨false, obs, docAnchors⟩ maxItems fuel).2 =
      (dedupFirst docAnchors).take maxItems ∧
    ((collectUrls ⟨false, obs, docAnchors⟩ maxItems fuel).2).Nodup := by
  refine ⟨rfl, ?_, ?_⟩
  · rw [collectUrls, setFromList_eq_dedupFirst]
  · rw [collectUrls, setFromList_eq_dedupFirst]
    exact (dedupFirst_nodup docAnchors).sublist (List.take_sublist _ _)

end GmapExtractor
